import Mathlib

/-!
Shallow embedding of the dss dynamic byte-string library (src/dss.c,
src/dss.h) and proofs of the specified properties.

A dss allocation is one contiguous block: a packed header (uint64 size,
uint64 len, uint32 ref_count) followed by the byte buffer.  The handle
given to callers points at the buffer; the header sits at a fixed
negative offset.  Here an allocation is a record whose `buf` field lists
the bytes of the usable buffer area (the allocation minus the header).
Machine integers are modelled as `Nat` (sizes never approach 2^64 in the
properties considered) and `Int` for the C `int` index parameters of
`dss_trim`.  Allocation is assumed to succeed, as every claim considered
is conditioned on the allocations succeeding.
-/

/-- Size in bytes of the packed dss_hdr struct: uint64 size + uint64 len +
uint32 ref_count. -/
def dss_hdr_size : Nat := 20

/-- Byte value standing for the indeterminate contents of memory freshly
obtained from realloc growth (never 0, so nothing is accidentally
terminated). -/
def dss_junk : Nat := 171

/-- Header plus buffer of one dss allocation.  `size` is the total
allocation size in bytes (header included), `len` the number of occupied
buffer bytes including the null terminator, `ref_count` the number of
outstanding owners, and `buf` the bytes of the buffer area. -/
structure dss_hdr where
  size : Nat
  len : Nat
  ref_count : Nat
  buf : List Nat
deriving Repr, DecidableEq

/-- Usable buffer bytes of an allocation: total size minus the header,
matching `hdr->size - sizeof(dss_hdr)` in the source. -/
def dss_usable (h : dss_hdr) : Nat := h.size - dss_hdr_size

/-- Payload bytes of a handle: the occupied bytes before the terminator. -/
def dss_payload (h : dss_hdr) : List Nat := h.buf.take (h.len - 1)

/-- Well-formedness of an allocation: at least the terminator is stored,
`buf` models exactly the usable area, and the occupied bytes fit in it. -/
def dss_wf (h : dss_hdr) : Prop :=
  1 ≤ h.len ∧ h.buf.length = dss_usable h ∧ h.len ≤ dss_usable h ∧
    dss_hdr_size ≤ h.size

instance (h : dss_hdr) : Decidable (dss_wf h) := by
  unfold dss_wf; infer_instance

/-- The terminator invariant of the data model: the last occupied byte,
`buf[len - 1]`, is 0. -/
def dss_terminated (h : dss_hdr) : Prop := h.buf[h.len - 1]? = some 0

instance (h : dss_hdr) : Decidable (dss_terminated h) := by
  unfold dss_terminated; infer_instance

/-- Overwrite the bytes of `dest` starting at `pos` with `src`, as `memcpy`,
`memmove` and `memset` do when the write stays inside the buffer. -/
def storeBytes (dest : List Nat) (pos : Nat) (src : List Nat) : List Nat :=
  dest.take pos ++ src ++ dest.drop (pos + src.length)

/-- Embedding of `dss_expand` (src/dss.c lines 24-52): if
`needed = hdr->len + len` fits in `total = hdr->size - sizeof(dss_hdr)` the
allocation is returned unchanged; otherwise the usable capacity becomes
`total * 2`, or `needed * 2` when `total * 2` is still below `needed`, and
the buffer is reallocated (contents preserved, new bytes indeterminate). -/
def dss_expand (h : dss_hdr) (len : Nat) : dss_hdr :=
  let needed := h.len + len
  let total := h.size - dss_hdr_size
  if needed ≤ total then h
  else
    let new_cap := if total * 2 < needed then needed * 2 else total * 2
    { h with size := dss_hdr_size + new_cap,
             buf := h.buf ++ List.replicate (new_cap - h.buf.length) dss_junk }

/-- Embedding of `dss_append_bytes` (src/dss.c lines 55-63): copy `t` over
the buffer starting at the current terminator position `hdr->len - 1`,
advance `len`, and write the terminator at the new `len - 1`. -/
def dss_append_bytes (h : dss_hdr) (t : List Nat) : dss_hdr :=
  let buf1 := storeBytes h.buf (h.len - 1) t
  let len1 := h.len + t.length
  { h with len := len1, buf := buf1.set (len1 - 1) 0 }

/-- Embedding of `dss_newb` (src/dss.c lines 70-89): allocate
`sizeof(dss_hdr) + len + 1` bytes, copy the payload, write the terminator,
set `len = payload_length + 1` and `ref_count = 1`. -/
def dss_newb (s : List Nat) : dss_hdr :=
  { size := dss_hdr_size + s.length + 1, len := s.length + 1, ref_count := 1,
    buf := s ++ [0] }

/-- Embedding of `dss_concatb` (src/dss.c lines 96-108): no-op on an empty
append, otherwise expand if required and append the bytes. -/
def dss_concatb (h : dss_hdr) (t : List Nat) : dss_hdr :=
  if t.length = 0 then h
  else dss_append_bytes (dss_expand h t.length) t

/-- Embedding of `dss_dup` (src/dss.c lines 115-124): a fresh allocation of
`hdr->size` bytes filled by a byte-for-byte copy of the whole allocation,
header fields included.  As a value the copy equals the original; the
copy-on-write embedding below keeps the two allocations apart explicitly. -/
def dss_dup (h : dss_hdr) : dss_hdr := h

/-- Embedding of `dss_refshare` (src/dss.c lines 158-161): increment
`ref_count` and return the same handle. -/
def dss_refshare (h : dss_hdr) : dss_hdr :=
  { h with ref_count := h.ref_count + 1 }

/-- Both allocations touched by a `dss_concatcowb` call: the original
allocation as the call leaves it, and the allocation of the returned
handle.  When no copy is taken the two coincide. -/
structure cow_out where
  orig : dss_hdr
  ret : dss_hdr
deriving Repr, DecidableEq

/-- Embedding of `dss_concatcowb` (src/dss.c lines 174-197): when
`ref_count > 1`, duplicate the allocation; on an empty append return the
duplicate at once (the source's early return, which skips the ref_count
updates); otherwise expand and append on the duplicate, decrement the
original's ref_count, and set the duplicate's ref_count to 1.  When
`ref_count <= 1`, fall through to `dss_concatb`. -/
def dss_concatcowb (h : dss_hdr) (t : List Nat) : cow_out :=
  if h.ref_count > 1 then
    let dup := dss_dup h
    if t.length = 0 then { orig := h, ret := dup }
    else
      let dup1 := dss_append_bytes (dss_expand dup t.length) t
      { orig := { h with ref_count := h.ref_count - 1 },
        ret := { dup1 with ref_count := 1 } }
  else
    let r := dss_concatb h t
    { orig := r, ret := r }

/-- Embedding of `dss_grow` (src/dss.c lines 204-214): when the target
exceeds the current `len`, expand, `memset` `len` zero bytes starting at
the old `len`, set `len` to the target, and write a 0 at index `len`. -/
def dss_grow (h : dss_hdr) (len : Nat) : dss_hdr :=
  if h.len < len then
    let h1 := dss_expand h len
    let buf1 := storeBytes h1.buf h1.len (List.replicate len 0)
    { h1 with len := len, buf := buf1.set len 0 }
  else h

/-- Resolved start index of `dss_trim` (src/dss.c lines 245-253): negative
values count from `slen`, then the result is clamped into `[0, slen]`. -/
def dss_trim_start (slen : Nat) (start : Int) : Int :=
  let s0 : Int := if start < 0 then (slen : Int) + start else start
  let s1 : Int := if s0 < 0 then 0 else s0
  if (slen : Int) < s1 then (slen : Int) else s1

/-- Resolved end index of `dss_trim` (src/dss.c lines 247-257): negative
values count from `slen`, values at or past `slen` clamp to `slen - 1`, and
a value below the resolved start is forced to `start - 1`. -/
def dss_trim_end (slen : Nat) (start_r end_ : Int) : Int :=
  let e0 : Int := if end_ < 0 then (slen : Int) + end_ else end_
  let e1 : Int := if (slen : Int) ≤ e0 then (slen : Int) - 1 else e0
  if e1 < start_r then start_r - 1 else e1

/-- Embedding of `dss_trim` (src/dss.c lines 241-274): resolve and clamp the
indices against `slen = hdr->len - 1`, move `new_len = end - start + 1`
bytes to the front, terminate, set `len = new_len + 1`, and shrink the
allocation to exactly fit the trimmed bytes. -/
def dss_trim (h : dss_hdr) (start end_ : Int) : dss_hdr :=
  let slen : Nat := h.len - 1
  let s2 : Int := dss_trim_start slen start
  let e2 : Int := dss_trim_end slen s2 end_
  let new_len : Nat := (e2 - s2 + 1).toNat
  let moved := (h.buf.drop s2.toNat).take new_len
  let buf1 := storeBytes h.buf 0 moved
  { size := dss_hdr_size + new_len + 1, len := new_len + 1,
    ref_count := h.ref_count, buf := (buf1.set new_len 0).take (new_len + 1) }

/-- Extraction the spec describes for `trim`, stated from the spec's words:
inclusive substring `[start, end]` of the payload, negative indices counted
from the end (`-1` is the last payload byte), indices clamped into range,
empty result when the resolved `end < start`. -/
def dss_trim_spec (p : List Nat) (start end_ : Int) : List Nat :=
  let n : Int := p.length
  let s : Int := if start < 0 then n + start else start
  let e : Int := if end_ < 0 then n + end_ else end_
  let s' : Int := max 0 (min s n)
  let e' : Int := min e (n - 1)
  if e' < s' then [] else (p.drop s'.toNat).take (e' - s' + 1).toNat

/-- Bytes `dss_catprintf` (src/dss.c lines 220-237) allocates for its
temporary buffer: `malloc(tb)` where `tb` is the measured formatted size,
with no room for a terminator. -/
def dss_catprintf_temp_size (rendered : List Nat) : Nat := rendered.length

/-- Bytes the render pass of `dss_catprintf` writes into the temporary
buffer: `vsnprintf(temp, tb + DSS_NULLT, ...)` is told the buffer holds
`tb + 1` bytes, so it writes the `tb` rendered bytes plus the terminator. -/
def dss_catprintf_written (rendered : List Nat) : Nat := rendered.length + 1

/-- Operations of the reference-lifecycle state machine: create a handle,
share an existing one, release a share. -/
inductive dss_op where
  | newb
  | refshare (i : Nat)
  | free (i : Nat)
deriving Repr, DecidableEq

/-- One step of the lifecycle over a heap of allocations: entry `some r` is
a live allocation with ref_count `r`, `none` a deallocated one.  `dss_newb`
creates a live allocation with ref_count 1; `dss_refshare` increments the
count of a live allocation; `dss_free` decrements it and deallocates
exactly when the decremented count is 0 (`if (--hdr->ref_count == 0)
free(hdr)`, src/dss.c lines 134-140).  Steps on dead entries are refused. -/
def dss_step (hp : List (Option Nat)) (op : dss_op) :
    Option (List (Option Nat)) :=
  match op with
  | .newb => some (hp ++ [some 1])
  | .refshare i =>
    match hp[i]? with
    | some (some r) => some (hp.set i (some (r + 1)))
    | _ => none
  | .free i =>
    match hp[i]? with
    | some (some r) =>
      if r - 1 = 0 then some (hp.set i none)
      else some (hp.set i (some (r - 1)))
    | _ => none

/-! Helper lemmas about the embedding. -/

theorem storeBytes_length {dest src : List Nat} {pos : Nat}
    (h : pos + src.length ≤ dest.length) :
    (storeBytes dest pos src).length = dest.length := by
  simp only [storeBytes, List.length_append, List.length_take,
    List.length_drop]
  omega

theorem storeBytes_take {dest src : List Nat} {pos : Nat}
    (h : pos ≤ dest.length) :
    (storeBytes dest pos src).take (pos + src.length) = dest.take pos ++ src := by
  unfold storeBytes
  apply List.take_left'
  simp only [List.length_append, List.length_take]
  omega

theorem storeBytes_getElem_src {dest src : List Nat} {pos k : Nat}
    (hpos : pos ≤ dest.length) (hk : k < src.length) :
    (storeBytes dest pos src)[pos + k]? = src[k]? := by
  unfold storeBytes
  have hlt : pos + k < (dest.take pos ++ src).length := by
    simp only [List.length_append, List.length_take]
    omega
  have hge : (dest.take pos).length ≤ pos + k := by
    simp only [List.length_take]
    omega
  rw [List.getElem?_append_left hlt, List.getElem?_append_right hge]
  congr 1
  simp only [List.length_take]
  omega

theorem dss_expand_len (h : dss_hdr) (e : Nat) : (dss_expand h e).len = h.len := by
  unfold dss_expand
  dsimp only
  split <;> rfl

theorem dss_expand_ref_count (h : dss_hdr) (e : Nat) :
    (dss_expand h e).ref_count = h.ref_count := by
  unfold dss_expand
  dsimp only
  split <;> rfl

theorem dss_expand_buf (h : dss_hdr) (e : Nat) :
    ∃ j, (dss_expand h e).buf = h.buf ++ j := by
  unfold dss_expand
  dsimp only
  split
  · exact ⟨[], (List.append_nil _).symm⟩
  · exact ⟨_, rfl⟩

theorem dss_expand_wf_cap {h : dss_hdr} (e : Nat) (hw : dss_wf h) :
    dss_wf (dss_expand h e) ∧ h.len + e ≤ (dss_expand h e).buf.length := by
  obtain ⟨h1, h2, h3, h4⟩ := hw
  rw [dss_usable] at h2 h3
  unfold dss_expand
  dsimp only
  split
  · exact ⟨⟨h1, h2, h3, h4⟩, by omega⟩
  · refine ⟨⟨h1, ?_, ?_, ?_⟩, ?_⟩ <;>
      simp only [dss_usable, List.length_append, List.length_replicate] <;>
      split <;> omega

theorem dss_payload_length {h : dss_hdr} (hw : dss_wf h) :
    (dss_payload h).length = h.len - 1 := by
  obtain ⟨h1, h2, h3, h4⟩ := hw
  rw [dss_usable] at h2 h3
  simp only [dss_payload, List.length_take]
  omega

theorem dss_expand_payload {h : dss_hdr} (e : Nat) (hw : dss_wf h) :
    dss_payload (dss_expand h e) = dss_payload h := by
  obtain ⟨j, hj⟩ := dss_expand_buf h e
  obtain ⟨h1, h2, h3, h4⟩ := hw
  rw [dss_usable] at h2 h3
  simp only [dss_payload, hj, dss_expand_len]
  exact List.take_append_of_le_length (by omega)

theorem dss_append_bytes_spec {h : dss_hdr} {t : List Nat}
    (h1 : 1 ≤ h.len) (hcap : h.len + t.length ≤ h.buf.length) :
    dss_payload (dss_append_bytes h t) = dss_payload h ++ t ∧
    dss_terminated (dss_append_bytes h t) ∧
    (dss_append_bytes h t).ref_count = h.ref_count ∧
    (dss_append_bytes h t).len = h.len + t.length ∧
    (dss_append_bytes h t).size = h.size ∧
    (dss_append_bytes h t).buf.length = h.buf.length := by
  have hlen1 : (storeBytes h.buf (h.len - 1) t).length = h.buf.length :=
    storeBytes_length (by omega)
  refine ⟨?_, ?_, rfl, rfl, rfl, by simp [dss_append_bytes, hlen1]⟩
  · show ((storeBytes h.buf (h.len - 1) t).set (h.len + t.length - 1) 0).take
      (h.len + t.length - 1) = h.buf.take (h.len - 1) ++ t
    rw [List.set_take, List.set_eq_of_length_le
      (by simp only [List.length_take]; omega)]
    have harith : h.len + t.length - 1 = (h.len - 1) + t.length := by omega
    rw [harith, storeBytes_take (by omega)]
  · show ((storeBytes h.buf (h.len - 1) t).set (h.len + t.length - 1)
      0)[h.len + t.length - 1]? = some 0
    exact List.getElem?_set_self (by omega)

theorem dss_concat_core {h : dss_hdr} (t : List Nat) (hw : dss_wf h) :
    dss_wf (dss_append_bytes (dss_expand h t.length) t) ∧
    dss_payload (dss_append_bytes (dss_expand h t.length) t) =
      dss_payload h ++ t ∧
    dss_terminated (dss_append_bytes (dss_expand h t.length) t) ∧
    (dss_append_bytes (dss_expand h t.length) t).ref_count = h.ref_count ∧
    (dss_append_bytes (dss_expand h t.length) t).len = h.len + t.length := by
  obtain ⟨hwE, hcapE⟩ := dss_expand_wf_cap t.length hw
  obtain ⟨hE1, hE2, hE3, hE4⟩ := hwE
  rw [dss_usable] at hE2 hE3
  have hlenE : (dss_expand h t.length).len = h.len := dss_expand_len h t.length
  have h1 : 1 ≤ (dss_expand h t.length).len := hE1
  have hcap : (dss_expand h t.length).len + t.length ≤
      (dss_expand h t.length).buf.length := by
    rw [hlenE]; exact hcapE
  obtain ⟨hpay, hterm, hrc, hlen, hsize, hbuflen⟩ :=
    dss_append_bytes_spec h1 hcap
  refine ⟨⟨?_, ?_, ?_, ?_⟩, ?_, hterm, ?_, ?_⟩
  · rw [hlen]; omega
  · rw [dss_usable, hsize, hbuflen]; omega
  · rw [dss_usable, hsize, hlen, hlenE]; omega
  · rw [hsize]; omega
  · rw [hpay, dss_expand_payload t.length hw]
  · rw [hrc, dss_expand_ref_count]
  · rw [hlen, hlenE]

theorem dss_concatb_spec {h : dss_hdr} (t : List Nat) (hw : dss_wf h)
    (ht : dss_terminated h) :
    dss_wf (dss_concatb h t) ∧
    dss_payload (dss_concatb h t) = dss_payload h ++ t ∧
    dss_terminated (dss_concatb h t) ∧
    (dss_concatb h t).ref_count = h.ref_count := by
  unfold dss_concatb
  split
  · next h0 =>
    rw [List.length_eq_zero] at h0
    subst h0
    exact ⟨hw, by simp, ht, rfl⟩
  · obtain ⟨a, b, c, d, _⟩ := dss_concat_core t hw
    exact ⟨a, b, c, d⟩

theorem dss_grow_terminated {h : dss_hdr} (n : Nat) (hw : dss_wf h)
    (ht : dss_terminated h) : dss_terminated (dss_grow h n) := by
  unfold dss_grow
  dsimp only
  split
  · next hlt =>
    obtain ⟨hwE, hcapE⟩ := dss_expand_wf_cap n hw
    have hlenE : (dss_expand h n).len = h.len := dss_expand_len h n
    have h1 : 1 ≤ h.len := hw.1
    show ((storeBytes (dss_expand h n).buf (dss_expand h n).len
      (List.replicate n 0)).set n 0)[n - 1]? = some 0
    rw [List.getElem?_set_ne (by omega)]
    have hidx : n - 1 = (dss_expand h n).len + (n - 1 - h.len) := by
      rw [hlenE]; omega
    rw [hidx, storeBytes_getElem_src (by rw [hlenE]; omega)
      (by simp only [List.length_replicate]; omega)]
    rw [List.getElem?_replicate_of_lt (by omega)]
  · exact ht

theorem dss_trim_start_bounds (slen : Nat) (a : Int) :
    0 ≤ dss_trim_start slen a ∧ dss_trim_start slen a ≤ (slen : Int) := by
  unfold dss_trim_start
  dsimp only
  split_ifs <;> omega

theorem dss_trim_start_eq (slen : Nat) (a : Int) :
    dss_trim_start slen a =
      max 0 (min (if a < 0 then (slen : Int) + a else a) (slen : Int)) := by
  unfold dss_trim_start
  dsimp only
  rcases max_cases (0 : Int) (min (if a < 0 then (slen : Int) + a else a)
    (slen : Int)) with ⟨hm, _⟩ | ⟨hm, _⟩ <;>
    rcases min_cases (if a < 0 then (slen : Int) + a else a)
      ((slen : Int)) with ⟨hn, _⟩ | ⟨hn, _⟩ <;>
    split_ifs at * <;> omega

theorem dss_trim_end_eq (slen : Nat) (s b : Int) :
    dss_trim_end slen s b =
      if min (if b < 0 then (slen : Int) + b else b) ((slen : Int) - 1) < s
      then s - 1
      else min (if b < 0 then (slen : Int) + b else b) ((slen : Int) - 1) := by
  unfold dss_trim_end
  dsimp only
  rcases min_cases (if b < 0 then (slen : Int) + b else b)
    ((slen : Int) - 1) with ⟨hn, _⟩ | ⟨hn, _⟩ <;>
    split_ifs at * <;> omega

theorem dss_trim_end_bounds (slen : Nat) (s b : Int) :
    dss_trim_end slen s b = s - 1 ∨
      (s ≤ dss_trim_end slen s b ∧
        dss_trim_end slen s b ≤ (slen : Int) - 1) := by
  unfold dss_trim_end
  dsimp only
  split_ifs <;> omega

theorem dss_trim_buf {buf : List Nat} {s' n' : Nat}
    (hn : s' + n' < buf.length) :
    (((storeBytes buf 0 ((buf.drop s').take n')).set n' 0).take (n' + 1)).take n'
      = (buf.drop s').take n' ∧
    (((storeBytes buf 0 ((buf.drop s').take n')).set n' 0).take (n' + 1))[n']?
      = some 0 := by
  have hmlen : ((buf.drop s').take n').length = n' := by
    simp only [List.length_take, List.length_drop]
    omega
  have hb1len : (storeBytes buf 0 ((buf.drop s').take n')).length = buf.length :=
    storeBytes_length (by omega)
  constructor
  · rw [List.take_take, Nat.min_eq_left (Nat.le_succ n'), List.set_take,
      List.set_eq_of_length_le (by simp only [List.length_take]; omega)]
    show (storeBytes buf 0 ((buf.drop s').take n')).take n' = _
    unfold storeBytes
    simp only [List.take_zero, List.nil_append]
    exact List.take_left' hmlen
  · rw [List.getElem?_take_of_lt (Nat.lt_succ_self n')]
    exact List.getElem?_set_self (by omega)

theorem dss_trim_correct {h : dss_hdr} (a b : Int) (hw : dss_wf h) :
    dss_payload (dss_trim h a b) = dss_trim_spec (dss_payload h) a b ∧
    dss_terminated (dss_trim h a b) := by
  obtain ⟨h1, h2, h3, _⟩ := hw
  rw [dss_usable] at h2 h3
  have hplen : (dss_payload h).length = h.len - 1 := by
    simp only [dss_payload, List.length_take]
    omega
  obtain ⟨hs0, hsle⟩ := dss_trim_start_bounds (h.len - 1) a
  have hebound := dss_trim_end_bounds (h.len - 1) (dss_trim_start (h.len - 1) a) b
  have hn : (dss_trim_start (h.len - 1) a).toNat +
      (dss_trim_end (h.len - 1) (dss_trim_start (h.len - 1) a) b -
        dss_trim_start (h.len - 1) a + 1).toNat < h.buf.length := by
    rcases hebound with hc | ⟨hc1, hc2⟩ <;> omega
  obtain ⟨hbuf_pay, hbuf_term⟩ := dss_trim_buf hn
  have hbuf_trim : (dss_trim h a b).buf =
      ((storeBytes h.buf 0
        ((h.buf.drop (dss_trim_start (h.len - 1) a).toNat).take
          ((dss_trim_end (h.len - 1) (dss_trim_start (h.len - 1) a) b -
            dss_trim_start (h.len - 1) a + 1).toNat))).set
        ((dss_trim_end (h.len - 1) (dss_trim_start (h.len - 1) a) b -
          dss_trim_start (h.len - 1) a + 1).toNat) 0).take
        ((dss_trim_end (h.len - 1) (dss_trim_start (h.len - 1) a) b -
          dss_trim_start (h.len - 1) a + 1).toNat + 1) := rfl
  have hlen_trim : (dss_trim h a b).len =
      (dss_trim_end (h.len - 1) (dss_trim_start (h.len - 1) a) b -
        dss_trim_start (h.len - 1) a + 1).toNat + 1 := rfl
  have hpay_code : dss_payload (dss_trim h a b) =
      (h.buf.drop (dss_trim_start (h.len - 1) a).toNat).take
        ((dss_trim_end (h.len - 1) (dss_trim_start (h.len - 1) a) b -
          dss_trim_start (h.len - 1) a + 1).toNat) := by
    rw [dss_payload, hbuf_trim, hlen_trim, Nat.add_sub_cancel]
    exact hbuf_pay
  have hterm_code : dss_terminated (dss_trim h a b) := by
    rw [dss_terminated, hbuf_trim, hlen_trim, Nat.add_sub_cancel]
    exact hbuf_term
  have hspec : dss_trim_spec (dss_payload h) a b =
      if min (if b < 0 then ((h.len - 1 : Nat) : Int) + b else b)
          (((h.len - 1 : Nat) : Int) - 1) < dss_trim_start (h.len - 1) a
      then []
      else ((dss_payload h).drop (dss_trim_start (h.len - 1) a).toNat).take
        ((min (if b < 0 then ((h.len - 1 : Nat) : Int) + b else b)
            (((h.len - 1 : Nat) : Int) - 1) -
          dss_trim_start (h.len - 1) a + 1).toNat) := by
    rw [dss_trim_spec]
    rw [hplen, ← dss_trim_start_eq]
  refine ⟨?_, hterm_code⟩
  rw [hpay_code, hspec]
  have hE := dss_trim_end_eq (h.len - 1) (dss_trim_start (h.len - 1) a) b
  by_cases hc : min (if b < 0 then ((h.len - 1 : Nat) : Int) + b else b)
      (((h.len - 1 : Nat) : Int) - 1) < dss_trim_start (h.len - 1) a
  · rw [if_pos hc] at hE ⊢
    rw [hE]
    have h0 : (dss_trim_start (h.len - 1) a - 1 -
        dss_trim_start (h.len - 1) a + 1).toNat = 0 := by omega
    rw [h0, List.take_zero]
  · rw [if_neg hc] at hE ⊢
    rw [hE]
    have hge := not_lt.mp hc
    have hle : min (if b < 0 then ((h.len - 1 : Nat) : Int) + b else b)
        (((h.len - 1 : Nat) : Int) - 1) ≤ ((h.len - 1 : Nat) : Int) - 1 :=
      min_le_right _ _
    simp only [dss_payload]
    rw [List.drop_take, List.take_take, Nat.min_eq_left (by omega)]

/-! Claim theorems. -/

/-- C1: the code contradicts the claim at the failing input.  For a handle
with ref_count 2 and the empty byte sequence, dss_concatcowb's early return
(src/dss.c lines 182-183) skips the ownership transfer: the original
allocation keeps ref_count 2 and the returned duplicate also carries
ref_count 2, instead of the claimed decrement to 1 on the original and
ref_count 1 on the returned handle. -/
theorem dss_concatcowb_empty_skips_transfer :
    (dss_concatcowb (dss_refshare (dss_newb [104, 105])) []).orig.ref_count
      = 2 ∧
    (dss_concatcowb (dss_refshare (dss_newb [104, 105])) []).ret.ref_count
      = 2 := by
  decide

/-- C2 counterexample: for the handle of "abc" (usable space 4, len 4) and 2
extra bytes, needed = 6 exceeds available = 4, yet the new usable capacity
is available * 2 = 8 and not max(available * 2, needed * 2) = 12. -/
theorem dss_expand_not_max :
    dss_usable (dss_newb [97, 98, 99]) < (dss_newb [97, 98, 99]).len + 2 ∧
    dss_usable (dss_expand (dss_newb [97, 98, 99]) 2) ≠
      max (dss_usable (dss_newb [97, 98, 99]) * 2)
        (((dss_newb [97, 98, 99]).len + 2) * 2) := by
  decide

/-- C2 amended: when needed = current_length + extra_bytes exceeds the usable
space available, the new usable capacity is available * 2 whenever that
already covers needed, and needed * 2 otherwise; in either case the result
covers needed. -/
theorem dss_expand_new_capacity (h : dss_hdr) (e : Nat)
    (hgt : dss_usable h < h.len + e) :
    dss_usable (dss_expand h e) =
      (if dss_usable h * 2 < h.len + e then (h.len + e) * 2
       else dss_usable h * 2) ∧
    h.len + e ≤ dss_usable (dss_expand h e) := by
  rw [dss_usable] at hgt
  unfold dss_expand
  dsimp only
  rw [if_neg (by omega)]
  simp only [dss_usable]
  constructor <;> split_ifs <;> omega

/-- C2 witness: the amended growth rule evaluated on the handle of "w" with
4 extra bytes requested. -/
theorem dss_expand_new_capacity_witness :
    dss_usable (dss_expand (dss_newb [119]) 4) =
      (if dss_usable (dss_newb [119]) * 2 < (dss_newb [119]).len + 4
       then ((dss_newb [119]).len + 4) * 2
       else dss_usable (dss_newb [119]) * 2) ∧
    (dss_newb [119]).len + 4 ≤ dss_usable (dss_expand (dss_newb [119]) 4) :=
  dss_expand_new_capacity (dss_newb [119]) 4 (by decide)

/-- C3: the code contradicts the claim at the failing input.  Growing the
empty string to target 5 sets len = 5 (src/dss.c line 209 stores the target
itself), not 6, so under the stored length only 4 zero payload bytes are
exposed instead of the claimed 5-byte zero-filled payload with length 6. -/
theorem dss_grow_empty_five :
    (dss_grow (dss_newb []) 5).len = 5 ∧
    dss_payload (dss_grow (dss_newb []) 5) = [0, 0, 0, 0] := by
  decide

/-- C4: copy-on-write isolation.  For a handle whose allocation is shared
(ref_count = 2) and any byte sequence x, dss_concatcowb leaves the original
allocation's buffer bytes, stored length and capacity unchanged, and the
returned handle's payload is the original payload followed by x. -/
theorem dss_concatcowb_isolation (h : dss_hdr) (x : List Nat)
    (hw : dss_wf h) (hrc : h.ref_count = 2) :
    (dss_concatcowb h x).orig.buf = h.buf ∧
    (dss_concatcowb h x).orig.len = h.len ∧
    (dss_concatcowb h x).orig.size = h.size ∧
    dss_payload (dss_concatcowb h x).ret = dss_payload h ++ x := by
  unfold dss_concatcowb
  rw [if_pos (by omega)]
  dsimp only
  by_cases hx : x.length = 0
  · rw [if_pos hx]
    have hxe : x = [] := List.length_eq_zero.mp hx
    subst hxe
    exact ⟨rfl, rfl, rfl, (List.append_nil _).symm⟩
  · rw [if_neg hx]
    obtain ⟨_, hpay, _, _, _⟩ := dss_concat_core (h := dss_dup h) x hw
    exact ⟨rfl, rfl, rfl, hpay⟩

/-- C4 witness: the isolation property evaluated on "hi" shared twice with
"!" appended. -/
theorem dss_concatcowb_isolation_witness :
    (dss_concatcowb (dss_refshare (dss_newb [104, 105])) [33]).orig.buf =
      (dss_refshare (dss_newb [104, 105])).buf ∧
    (dss_concatcowb (dss_refshare (dss_newb [104, 105])) [33]).orig.len =
      (dss_refshare (dss_newb [104, 105])).len ∧
    (dss_concatcowb (dss_refshare (dss_newb [104, 105])) [33]).orig.size =
      (dss_refshare (dss_newb [104, 105])).size ∧
    dss_payload (dss_concatcowb (dss_refshare (dss_newb [104, 105])) [33]).ret
      = dss_payload (dss_refshare (dss_newb [104, 105])) ++ [33] :=
  dss_concatcowb_isolation (dss_refshare (dss_newb [104, 105])) [33]
    (by decide) (by decide)

/-- C5: reference lifecycle.  A fresh handle has ref_count 1; a refshare
returns the same handle with the count raised by exactly 1, and a lifecycle
step on a live heap entry with count r raises it to r + 1; a free step
lowers the count by exactly 1 and deallocates the entry exactly when the
count reaches 0 — while the remaining count is still positive the entry
stays live. -/
theorem dss_lifecycle (s : List Nat) (hp : List (Option Nat)) (i r : Nat)
    (hl : hp[i]? = some (some r)) (hr : 1 ≤ r) :
    (dss_newb s).ref_count = 1 ∧
    dss_step hp .newb = some (hp ++ [some 1]) ∧
    dss_refshare (dss_newb s) =
      { dss_newb s with ref_count := (dss_newb s).ref_count + 1 } ∧
    dss_step hp (.refshare i) = some (hp.set i (some (r + 1))) ∧
    dss_step hp (.free i) =
      some (hp.set i (if r = 1 then none else some (r - 1))) ∧
    (1 < r → dss_step hp (.free i) = some (hp.set i (some (r - 1)))) := by
  refine ⟨rfl, rfl, rfl, ?_, ?_, ?_⟩
  · simp only [dss_step, hl]
  · simp only [dss_step, hl]
    split_ifs <;> first | rfl | omega
  · intro hgt
    simp only [dss_step, hl]
    rw [if_neg (by omega)]

/-- C5 witness: the lifecycle rules evaluated on a one-entry heap holding a
live allocation with ref_count 2. -/
theorem dss_lifecycle_witness :
    (dss_newb [104]).ref_count = 1 ∧
    dss_step [some 2] .newb = some ([some 2] ++ [some 1]) ∧
    dss_refshare (dss_newb [104]) =
      { dss_newb [104] with ref_count := (dss_newb [104]).ref_count + 1 } ∧
    dss_step [some 2] (.refshare 0) = some ([some 2].set 0 (some (2 + 1))) ∧
    dss_step [some 2] (.free 0) =
      some ([some 2].set 0 (if 2 = 1 then none else some (2 - 1))) ∧
    (1 < 2 → dss_step [some 2] (.free 0) = some ([some 2].set 0 (some (2 - 1)))) :=
  dss_lifecycle [104] [some 2] 0 2 (by decide) (by decide)

/-- C6: terminator invariant.  The handle returned by dss_newb, dss_concatb,
dss_concatcowb, dss_grow and dss_trim always carries a 0 byte at index
len - 1, the terminator being counted inside len, provided the input handle
is well formed and terminated. -/
theorem dss_terminator_invariant (s t x : List Nat) (h : dss_hdr) (n : Nat)
    (a b : Int) (hw : dss_wf h) (ht : dss_terminated h) :
    dss_terminated (dss_newb s) ∧
    dss_terminated (dss_concatb h t) ∧
    dss_terminated (dss_concatcowb h x).ret ∧
    dss_terminated (dss_grow h n) ∧
    dss_terminated (dss_trim h a b) := by
  refine ⟨?_, (dss_concatb_spec t hw ht).2.2.1, ?_,
    dss_grow_terminated n hw ht, (dss_trim_correct a b hw).2⟩
  · show (s ++ [0])[s.length + 1 - 1]? = some 0
    rw [Nat.add_sub_cancel, List.getElem?_append_right (le_refl _)]
    simp
  · unfold dss_concatcowb
    dsimp only
    split_ifs
    · exact ht
    · exact (dss_concat_core x hw).2.2.1
    · exact (dss_concatb_spec x hw ht).2.2.1

/-- C6 witness: the terminator invariant evaluated on the handle of "h" with
concrete bytes, growth target and trim indices. -/
theorem dss_terminator_invariant_witness :
    dss_terminated (dss_newb [7]) ∧
    dss_terminated (dss_concatb (dss_newb [104]) [8]) ∧
    dss_terminated (dss_concatcowb (dss_newb [104]) [9]).ret ∧
    dss_terminated (dss_grow (dss_newb [104]) 3) ∧
    dss_terminated (dss_trim (dss_newb [104]) 0 0) :=
  dss_terminator_invariant [7] [8] [9] (dss_newb [104]) 3 0 0
    (by decide) (by decide)

/-- C7: dss_trim extracts exactly the substring the spec describes —
inclusive indices, negative values counted from the end, clamping, empty
result when the resolved end lies before the start — and on payload "hello"
the three quoted examples give "llo", "" and "". -/
theorem dss_trim_matches_spec (h : dss_hdr) (a b : Int) (hw : dss_wf h) :
    dss_payload (dss_trim h a b) = dss_trim_spec (dss_payload h) a b ∧
    dss_payload (dss_trim (dss_newb [104, 101, 108, 108, 111]) (-3) (-1)) =
      [108, 108, 111] ∧
    dss_payload (dss_trim (dss_newb [104, 101, 108, 108, 111]) 10 20) = [] ∧
    dss_payload (dss_trim (dss_newb [104, 101, 108, 108, 111]) 2 1) = [] :=
  ⟨(dss_trim_correct a b hw).1, by decide, by decide, by decide⟩

/-- C7 witness: the trim refinement evaluated on the handle of "he" with
indices -2 and 5. -/
theorem dss_trim_matches_spec_witness :
    dss_payload (dss_trim (dss_newb [104, 101]) (-2) 5) =
      dss_trim_spec (dss_payload (dss_newb [104, 101])) (-2) 5 ∧
    dss_payload (dss_trim (dss_newb [104, 101, 108, 108, 111]) (-3) (-1)) =
      [108, 108, 111] ∧
    dss_payload (dss_trim (dss_newb [104, 101, 108, 108, 111]) 10 20) = [] ∧
    dss_payload (dss_trim (dss_newb [104, 101, 108, 108, 111]) 2 1) = [] :=
  dss_trim_matches_spec (dss_newb [104, 101]) (-2) 5 (by decide)

/-- C8: append composes as concatenation — two successive dss_concatb calls
append t1 and then t2, so the final payload is payload(h) ++ t1 ++ t2. -/
theorem dss_concatb_assoc (h : dss_hdr) (t1 t2 : List Nat) (hw : dss_wf h)
    (ht : dss_terminated h) :
    dss_payload (dss_concatb (dss_concatb h t1) t2) =
      dss_payload h ++ t1 ++ t2 := by
  obtain ⟨hw1, hp1, ht1, _⟩ := dss_concatb_spec t1 hw ht
  obtain ⟨_, hp2, _, _⟩ := dss_concatb_spec t2 hw1 ht1
  rw [hp2, hp1]

/-- C8 witness: the composition law evaluated on "h" with "ij" and "k". -/
theorem dss_concatb_assoc_witness :
    dss_payload (dss_concatb (dss_concatb (dss_newb [104]) [105, 106]) [107])
      = dss_payload (dss_newb [104]) ++ [105, 106] ++ [107] :=
  dss_concatb_assoc (dss_newb [104]) [105, 106] [107] (by decide) (by decide)

/-- C9: the code contradicts the claim.  dss_catprintf measures tb rendered
bytes, allocates malloc(tb) for the temporary buffer, yet hands vsnprintf
the size tb + DSS_NULLT (src/dss.c lines 227-230), so the render pass
writes tb + 1 bytes — the rendered bytes plus the terminator — into a
tb-byte buffer, one byte past its end; shown here for a 1-byte rendering. -/
theorem dss_catprintf_temp_overflow :
    dss_catprintf_temp_size [97] = 1 ∧
    dss_catprintf_written [97] = 2 ∧
    dss_catprintf_temp_size [97] < dss_catprintf_written [97] := by
  decide

/-- C10: dss_concatb, dss_grow and dss_trim never change the allocation's
ref_count, whether or not the buffer moves. -/
theorem dss_mutations_keep_ref_count (h : dss_hdr) (t : List Nat) (n : Nat)
    (a b : Int) :
    (dss_concatb h t).ref_count = h.ref_count ∧
    (dss_grow h n).ref_count = h.ref_count ∧
    (dss_trim h a b).ref_count = h.ref_count := by
  refine ⟨?_, ?_, rfl⟩
  · unfold dss_concatb
    split_ifs
    · rfl
    · exact dss_expand_ref_count h t.length
  · unfold dss_grow
    dsimp only
    split_ifs
    · exact dss_expand_ref_count h n
    · rfl
